import Mathlib

/-!
Verification of the knoxcache datastore, URL encoder, HTML link rewriter and
header wire format, shallowly embedded from the Go sources
(`datastore.go`, `encoder.go`, `knox.go`).

Times are modelled as natural numbers (Unix microseconds); the metadata
database is modelled as the list of its rows in insertion (primary-key) order.
-/

namespace Knox

/-- One row of the `resource_metadata` table (struct `resourceMetadata` in
`datastore.go`).  The gorm soft-delete column is omitted: the repository never
deletes rows, so every row is live. -/
structure ResourceRow where
  id : Nat
  hashedUrl : String
  url : String
  requestHeaders : String
  responseHeaders : String
  downloadStarted : Nat
  downloadFinished : Nat
  rawBytes : Nat
  bytesOnDisk : Nat
  downloadComplete : Bool
deriving DecidableEq, Repr

/-- The metadata database: rows in primary-key order. -/
abbrev DB := List ResourceRow

/-- The `ResourceStatus` enum from `datastore.go`. -/
inductive ResourceStatus
  | notCached
  | downloading
  | cached
deriving DecidableEq, Repr

/-- Model of `FileDatastore.Status`: `db.First(&rm, "hashed_url = ?", hashedUrl)`
followed by the `DownloadComplete` test.  `First` returns the matching row
with the smallest primary key, i.e. the first match in insertion order. -/
def Status (db : DB) (hashedUrl : String) : ResourceStatus :=
  match db.find? (fun r => r.hashedUrl = hashedUrl) with
  | none => .notCached
  | some r => if r.downloadComplete then .cached else .downloading

/-- The fresh primary key sqlite assigns on insert: one more than the largest
key in use. -/
def nextId (db : DB) : Nat :=
  (db.map (fun r => r.id)).foldr max 0 + 1

/-- Model of `FileDatastore.tryCreateStubRecord`: builds a stub row
(`DownloadStarted = now`, `DownloadFinished = time.UnixMicro(0)`,
`DownloadComplete = false`, zero sizes, empty header blocks) and inserts it
with `ON CONFLICT DO NOTHING`.  A conflict on either unique column
(`hashed_url` or `url`) leaves the table unchanged and reports
`RowsAffected = 0`, which the function surfaces as `(false, 0)`. -/
def tryCreateStubRecord (db : DB) (resourceUrl hashedUrl : String) (now : Nat) :
    Bool × Nat × DB :=
  if db.any (fun r => r.hashedUrl = hashedUrl || r.url = resourceUrl) then
    (false, 0, db)
  else
    let id := nextId db
    (true, id,
      db ++ [{ id := id, hashedUrl := hashedUrl, url := resourceUrl,
               requestHeaders := "", responseHeaders := "",
               downloadStarted := now, downloadFinished := 0,
               rawBytes := 0, bytesOnDisk := 0, downloadComplete := false }])

/-- Model of `FileResourceWriter.writeFinalMetadata`: the single `Updates` statement
`WHERE id = ?` that stores the response headers, the finish time, both byte
counts and sets `download_complete = true`. -/
def writeFinalMetadata (db : DB) (id : Nat) (responseHeaders : String)
    (now rawBytes bytesOnDisk : Nat) : DB :=
  db.map (fun r =>
    if r.id = id then
      { r with responseHeaders := responseHeaders, downloadFinished := now,
               rawBytes := rawBytes, bytesOnDisk := bytesOnDisk,
               downloadComplete := true }
    else r)

/-- Model of `FileDatastore.Stats`: `Count` over the whole table and
`sum(bytes_on_disk)` over the whole table — neither query filters on
`download_complete`. -/
def Stats (db : DB) : Nat × Nat :=
  (db.length, (db.map (fun r => r.bytesOnDisk)).sum)

/-- What §4.3 of the spec asks of `Stats` (aggregation over the completed
rows only); stated from the spec's words to compare with `Stats`. -/
def StatsSpec (db : DB) : Nat × Nat :=
  ((db.filter (fun r => r.downloadComplete)).length,
   ((db.filter (fun r => r.downloadComplete)).map (fun r => r.bytesOnDisk)).sum)

/-! ### URL encoder (`encoder.go`, current revision)

`DefaultEncoder.Encode` is `base64.URLEncoding.EncodeToString`: padded base64
over the URL-safe alphabet.  `DefaultEncoder.Decode` is
`base64.URLEncoding.DecodeString` and fails on ill-formed input.  URLs are
modelled as their byte sequences (naturals below 256). -/

/-- The `base64.URLEncoding` alphabet. -/
def b64Alphabet : List Char :=
  ['A', 'B', 'C', 'D', 'E', 'F', 'G', 'H', 'I', 'J', 'K', 'L', 'M',
   'N', 'O', 'P', 'Q', 'R', 'S', 'T', 'U', 'V', 'W', 'X', 'Y', 'Z',
   'a', 'b', 'c', 'd', 'e', 'f', 'g', 'h', 'i', 'j', 'k', 'l', 'm',
   'n', 'o', 'p', 'q', 'r', 's', 't', 'u', 'v', 'w', 'x', 'y', 'z',
   '0', '1', '2', '3', '4', '5', '6', '7', '8', '9', '-', '_']

/-- Alphabet lookup used by the base64 encoder. -/
def b64Char (v : Nat) : Char := b64Alphabet.getD v '?'

/-- The decoder's reverse alphabet table (`decodeMap`); `none` marks a byte
that is not part of any encoding. -/
def b64Index (c : Char) : Option Nat := b64Alphabet.findIdx? (fun a => a = c)

/-- Model of `base64.URLEncoding.EncodeToString`: three input bytes become four
alphabet characters; a final group of one or two bytes is padded with `=`. -/
def Encode : List Nat → List Char
  | [] => []
  | [b0] => [b64Char (b0 / 4), b64Char (b0 % 4 * 16), '=', '=']
  | [b0, b1] => [b64Char (b0 / 4), b64Char (b0 % 4 * 16 + b1 / 16),
                 b64Char (b1 % 16 * 4), '=']
  | b0 :: b1 :: b2 :: rest =>
      b64Char (b0 / 4) :: b64Char (b0 % 4 * 16 + b1 / 16) ::
      b64Char (b1 % 16 * 4 + b2 / 64) :: b64Char (b2 % 64) :: Encode rest

/-- Model of `base64.URLEncoding.DecodeString`: consumes four-character quanta;
`=` padding is accepted only at the end of the final quantum, anything else
is a `CorruptInputError`, modelled as `none`. -/
def Decode : List Char → Option (List Nat)
  | [] => some []
  | c0 :: c1 :: c2 :: c3 :: rest =>
    match b64Index c0, b64Index c1 with
    | some v0, some v1 =>
      if c2 = '=' then
        if c3 = '=' ∧ rest = [] then some [v0 * 4 + v1 / 16] else none
      else
        match b64Index c2 with
        | some v2 =>
          if c3 = '=' then
            if rest = [] then some [v0 * 4 + v1 / 16, v1 % 16 * 16 + v2 / 4]
            else none
          else
            match b64Index c3 with
            | some v3 =>
              match Decode rest with
              | some tail =>
                  some ((v0 * 4 + v1 / 16) :: (v1 % 16 * 16 + v2 / 4) ::
                        (v2 % 4 * 64 + v3) :: tail)
              | none => none
            | none => none
        | none => none
    | _, _ => none
  | _ => none

/-! ### HTML link rewriting (`knox.go`)

`translateAbsoluteUrlToCachedUrl` is `fmt.Sprintf("%s://%s/c/%s", protocol,
host, encoder.Encode(toTranslate))`; the encoder never fails.
`translateCachedUrl` first resolves the attribute value to an absolute URL
with `net/url` (`url.Parse` + `ResolveReference`), which is standard-library
code modelled here as an explicit `resolveAbs` argument returning `none`
exactly when `url.Parse` fails. -/

/-- Model of `translateAbsoluteUrlToCachedUrl` from `knox.go`. -/
def translateAbsoluteUrlToCachedUrl (toTranslate : List Nat)
    (protocol host : List Char) : List Char :=
  protocol ++ [':', '/', '/'] ++ host ++ ['/', 'c', '/'] ++ Encode toTranslate

/-- Model of `translateCachedUrl` from `knox.go`; `resolveAbs` stands for the
`url.Parse` / `ResolveReference` pipeline that absolutizes the attribute
value against the resource's own URL. -/
def translateCachedUrl (resolveAbs : List Nat → Option (List Nat))
    (toTranslate : List Nat) (protocol host : List Char) : Option (List Char) :=
  match resolveAbs toTranslate with
  | none => none
  | some absUrl => some (translateAbsoluteUrlToCachedUrl absUrl protocol host)

/-! ### Waiter backoff (`datastore.go`)

`withExponentialBackoff` is called by `awaitCompletedResource` with
`base = 100ms`, `growthFactor = 1.5`, `maxDuration = 10s`,
`maxTime = 30min`.  Durations are modelled in nanoseconds
(`time.Duration`'s unit).  For every delay the loop can reach
(`100ms ≤ d ≤ 10s`), `float64` arithmetic is exact, and
`math.Round(1.5 * d)` rounds the only possible fraction `.5` away from
zero, which over naturals is `(3 * d + 1) / 2`. -/

/-- The `base` passed by `awaitCompletedResource`: 100 ms in nanoseconds. -/
def backoffBase : Nat := 100000000

/-- The `maxDuration` individual-delay ceiling: 10 s in nanoseconds. -/
def backoffMaxDuration : Nat := 10000000000

/-- The `maxTime` overall deadline: 30 min in nanoseconds. -/
def backoffMaxTime : Nat := 1800000000000

/-- The delay update at the bottom of the loop:
`currentDelay = round(growthFactor * currentDelay)` followed by the
`currentDelay >= maxDuration` clamp. -/
def nextDelay (d : Nat) : Nat :=
  let grown := (3 * d + 1) / 2
  if grown ≥ backoffMaxDuration then backoffMaxDuration else grown

/-- The sequence of sleep lengths the waiter performs: the n-th sleep of
`withExponentialBackoff` when every attempt fails. -/
def delaySeq : Nat → Nat
  | 0 => backoffBase
  | n + 1 => nextDelay (delaySeq n)

/-- Outcome of the backoff loop.  `fuelOut` is an artifact of the bounded
model: the Go loop is unbounded, and the termination theorem shows enough
fuel makes `fuelOut` unreachable. -/
inductive BackoffResult
  | success (tries total : Nat)
  | timeout (total : Nat)
  | fuelOut
deriving DecidableEq, Repr

/-- Model of `withExponentialBackoff` at the parameters `awaitCompletedResource`
passes, with the polled condition modelled as `f : Nat → Bool` (attempt
number ↦ whether `getResource` succeeded, i.e. the row exists and
`DownloadComplete` is set).  Per iteration: run `f`; on success return;
otherwise count the try, give up if the slept total has reached `maxTime`,
else sleep `delay`, add it to the total and grow the delay. -/
def withExponentialBackoff (f : Nat → Bool) :
    Nat → Nat → Nat → Nat → BackoffResult
  | 0, _, _, _ => .fuelOut
  | fuel + 1, tries, delay, total =>
    if f tries then .success tries total
    else if total ≥ backoffMaxTime then .timeout total
    else withExponentialBackoff f fuel (tries + 1) (nextDelay delay) (total + delay)

/-! ### Header wire format (`datastore.go`)

`http.Header` is a Go map from key to value slice; it is modelled as an
association list in the canonical (sorted, as `Header.Write` emits it)
order, with one entry per key.  `headersAsString` is `Header.Write`
followed by an extra CRLF; `readHeaders` is the `bufio.Scanner` loop with
the `splitHeaderPair` split function. -/

/-- A multi-valued header mapping: the `http.Header` map as an association
list in the order `Header.Write` iterates it. -/
abbrev Headers := List (List Char × List (List Char))

/-- Character class of `textproto.TrimString` (the ASCII space forms). -/
def isHeaderSpace (c : Char) : Bool :=
  c = ' ' || c = '\t' || c = '\n' || c = '\r'

/-- Model of `textproto.TrimString`: strip leading and trailing ASCII whitespace,
applied by `Header.Write` to each value. -/
def trimString (l : List Char) : List Char :=
  ((l.dropWhile isHeaderSpace).reverse.dropWhile isHeaderSpace).reverse

/-- The `headerNewlineToSpace` replacer of `Header.Write`
(`strings.NewReplacer` with the rules `"\n" -> " "` and `"\r" -> " "`):
every newline and every carriage return inside a value becomes one space,
so a `\r\n` pair becomes two spaces. -/
def replaceNewlines : List Char → List Char
  | [] => []
  | '\n' :: rest => ' ' :: replaceNewlines rest
  | '\r' :: rest => ' ' :: replaceNewlines rest
  | c :: rest => c :: replaceNewlines rest

/-- The lines `Header.Write` emits for one key: `key: value\r\n` per value,
value first sanitized and trimmed. -/
def writeValues (k : List Char) : List (List Char) → List Char
  | [] => []
  | v :: vs =>
      k ++ ':' :: ' ' :: trimString (replaceNewlines v) ++
        '\r' :: '\n' :: writeValues k vs

/-- All lines `Header.Write` emits, one key after another. -/
def writeHeaderLines : Headers → List Char
  | [] => []
  | (k, vs) :: rest => writeValues k vs ++ writeHeaderLines rest

/-- Model of `headersAsString`: `Header.Write` into a buffer, then one extra CRLF
marking the end of the block (`nil` headers give the empty string; the
empty map is represented by the empty list, which also writes nothing). -/
def headersAsString (hs : Headers) : List Char :=
  writeHeaderLines hs ++ ['\r', '\n']

/-- The `dropCR` helper of `bufio.ScanLines`: remove one `\r` immediately before the
line's newline (or end of input). -/
def dropCR (l : List Char) : List Char :=
  if l.getLast? = some '\r' then l.dropLast else l

/-- Model of `bufio.ScanLines` over the whole input: split at each `\n`, dropping
one trailing `\r` per line; a final chunk without a newline is a line too,
but exhausted input yields no extra empty line. -/
def splitLinesAux : List Char → List Char → List (List Char)
  | cur, [] => if cur.isEmpty then [] else [dropCR cur.reverse]
  | cur, c :: rest =>
      if c = '\n' then dropCR cur.reverse :: splitLinesAux [] rest
      else splitLinesAux (c :: cur) rest

/-- The list of lines the outer scanner of `readHeaders` iterates over. -/
def splitLines (l : List Char) : List (List Char) := splitLinesAux [] l

/-- The first token `splitHeaderPair` yields on a line, i.e. the raw key:
everything before the first colon, or — when the line has no colon — the
whole line, which the scanner still reports as a token at EOF.  `none`
(no token, so `Scan` returns false) happens only on the empty line, which
`readHeaders` never hands to the pair scanner. -/
def splitFirstToken (l : List Char) : Option (List Char) :=
  if l.isEmpty then none
  else
    match l.findIdx? (fun c => c = ':') with
    | some i => some (l.take i)
    | none => some l

/-- Model of `strings.TrimRight(rawKey, " \t")`. -/
def trimRightSpaceTab (l : List Char) : List Char :=
  (l.reverse.dropWhile (fun c => c = ' ' || c = '\t')).reverse

/-- Model of `strings.TrimLeft(value, " \t")`. -/
def trimLeftSpaceTab (l : List Char) : List Char :=
  l.dropWhile (fun c => c = ' ' || c = '\t')

/-- What processing one nonempty header line does. -/
inductive LineResult
  | pair (key value : List Char)
  | parseErr
  | crash
deriving DecidableEq, Repr

/-- One iteration of the `readHeaders` loop body on a nonempty line:
take the pair scanner's first token as the raw key, trim it, and slice the
value out of `pairBytes[len(rawKey)+1:]`.  When the line has no colon the
raw key is the whole line and that slice's lower bound exceeds the line
length, so the Go code panics (`crash`); the `parseErr` branch
("Did not find a colon in header pair") is reachable only from an empty
token list, which cannot happen for a nonempty line. -/
def processLine (l : List Char) : LineResult :=
  match splitFirstToken l with
  | none => .parseErr
  | some rawKey =>
      if rawKey.length + 1 ≤ l.length then
        .pair (trimRightSpaceTab rawKey) (trimLeftSpaceTab (l.drop (rawKey.length + 1)))
      else .crash

/-- Result of `readHeaders`: a parsed mapping, the parse error, or the
slice-out-of-range panic. -/
inductive HeadersResult
  | ok (hs : Headers)
  | parseErr
  | crash
deriving DecidableEq, Repr

/-- The map update `headers[key] = append(currentValues, value)`: append a value to its
key's slice, first occurrence creating the entry (entries in order of
first appearance). -/
def addHeaderValue (hs : Headers) (k v : List Char) : Headers :=
  match hs with
  | [] => [(k, [v])]
  | (k', vs) :: rest =>
      if k' = k then (k', vs ++ [v]) :: rest
      else (k', vs) :: addHeaderValue rest k v

/-- The line loop of `readHeaders`: stop (successfully) at the first empty
line; otherwise process the line and accumulate. -/
def processLines (hs : Headers) : List (List Char) → HeadersResult
  | [] => .ok hs
  | l :: rest =>
      if l.isEmpty then .ok hs
      else
        match processLine l with
        | .pair k v => processLines (addHeaderValue hs k v) rest
        | .parseErr => .parseErr
        | .crash => .crash

/-- Model of `readHeaders` over a stored header block. -/
def readHeaders (s : List Char) : HeadersResult :=
  processLines [] (splitLines s)

/-- The two statements through which the repository ever mutates the
resource table. -/
inductive DbEvent
  | create (resourceUrl hashedUrl : String) (now : Nat)
  | finalize (id : Nat) (responseHeaders : String) (now rawBytes bytesOnDisk : Nat)

/-- Effect of one mutation on the table. -/
def applyEvent (db : DB) : DbEvent → DB
  | .create resourceUrl hashedUrl now => (tryCreateStubRecord db resourceUrl hashedUrl now).2.2
  | .finalize id hdrs now raw disk => writeFinalMetadata db id hdrs now raw disk

/-- The writer protocol: `writeFinalMetadata` is only ever issued from
`FileResourceWriter.Close`, whose `id` is the key of the stub row the writer
itself created, still marked incomplete. -/
def validEvent (db : DB) : DbEvent → Prop
  | .create _ _ _ => True
  | .finalize id _ _ _ _ => ∀ r ∈ db, r.id = id → r.downloadComplete = false

/-- The path suffix after the last `/` of a URL string (its final
segment). -/
def afterLastSlash (l : List Char) : List Char :=
  (l.reverse.takeWhile (fun c => c ≠ '/')).reverse

/-- The lines of a header block before serialization, one `key: value` line
per value (used to relate `headersAsString` to `readHeaders`). -/
def linesOf : Headers → List (List Char)
  | [] => []
  | (k, vs) :: rest => vs.map (fun v => k ++ ':' :: ' ' :: v) ++ linesOf rest

/-- The header mappings that survive the wire format unchanged: distinct
keys; keys free of colons and newlines and carrying no trailing blank; at
least one value per key; values unchanged by the writer's sanitization
(no newline, no carriage return, no leading or trailing ASCII
whitespace). -/
def WellFormedHeaders (hs : Headers) : Prop :=
  hs.Pairwise (fun a b => a.1 ≠ b.1) ∧
  ∀ p ∈ hs,
    (':' ∉ p.1 ∧ '\n' ∉ p.1 ∧ trimRightSpaceTab p.1 = p.1) ∧
    p.2 ≠ [] ∧
    ∀ v ∈ p.2, trimString (replaceNewlines v) = v ∧ trimLeftSpaceTab v = v

/-! ## Helper lemmas -/

set_option maxHeartbeats 1000000 in
/-- The decoder's table inverts the encoder's on every alphabet value. -/
theorem b64_round : ∀ v, v < 64 → b64Index (b64Char v) = some v := by decide

/-- No alphabet character is the padding character. -/
theorem b64_ne_eq : ∀ v, v < 64 → b64Char v ≠ '=' := by decide

/-- No character the encoder can emit is a slash (`/` is absent from the
URL-safe alphabet, from its out-of-range default, and from the padding). -/
theorem b64Char_ne_slash : ∀ v : Nat, b64Char v ≠ '/' := by
  intro v
  by_cases hv : v < 64
  · exact (by decide : ∀ v, v < 64 → b64Char v ≠ '/') v hv
  · have hlen : b64Alphabet.length = 64 := by rfl
    have : b64Alphabet.length ≤ v := by omega
    rw [b64Char, List.getD_eq_default _ _ this]
    decide

/-- The decoder is a left inverse of the encoder on byte sequences. -/
theorem decode_encode : ∀ u : List Nat, (∀ b ∈ u, b < 256) →
    Decode (Encode u) = some u
  | [], _ => rfl
  | [b0], h => by
      have h0 : b0 < 256 := h b0 (by simp)
      have e0 := b64_round (b0 / 4) (by omega)
      have e1 := b64_round (b0 % 4 * 16) (by omega)
      simp [Encode, Decode, e0, e1]
      omega
  | [b0, b1], h => by
      have h0 : b0 < 256 := h b0 (by simp)
      have h1 : b1 < 256 := h b1 (by simp)
      have e0 := b64_round (b0 / 4) (by omega)
      have e1 := b64_round (b0 % 4 * 16 + b1 / 16) (by omega)
      have e2 := b64_round (b1 % 16 * 4) (by omega)
      have n2 := b64_ne_eq (b1 % 16 * 4) (by omega)
      simp [Encode, Decode, e0, e1, e2, n2]
      omega
  | b0 :: b1 :: b2 :: rest, h => by
      have ih := decode_encode rest (fun b hb => h b (by simp [hb]))
      have h0 : b0 < 256 := h b0 (by simp)
      have h1 : b1 < 256 := h b1 (by simp)
      have h2 : b2 < 256 := h b2 (by simp)
      have e0 := b64_round (b0 / 4) (by omega)
      have e1 := b64_round (b0 % 4 * 16 + b1 / 16) (by omega)
      have e2 := b64_round (b1 % 16 * 4 + b2 / 64) (by omega)
      have e3 := b64_round (b2 % 64) (by omega)
      have n2 := b64_ne_eq (b1 % 16 * 4 + b2 / 64) (by omega)
      have n3 := b64_ne_eq (b2 % 64) (by omega)
      simp [Encode, Decode, e0, e1, e2, e3, n2, n3, ih]
      omega

/-- Every character of an encoding comes from the alphabet table or is
padding; in particular none is a slash. -/
theorem encode_no_slash : ∀ u : List Nat, ∀ c ∈ Encode u, c ≠ '/'
  | [], _, hc => by simp [Encode] at hc
  | [b0], c, hc => by
      simp [Encode] at hc
      rcases hc with h | h | h <;> simp [h, b64Char_ne_slash]
  | [b0, b1], c, hc => by
      simp [Encode] at hc
      rcases hc with h | h | h | h <;> simp [h, b64Char_ne_slash]
  | b0 :: b1 :: b2 :: rest, c, hc => by
      have ih := encode_no_slash rest
      simp [Encode] at hc
      rcases hc with h | h | h | h | h
      · simp [h, b64Char_ne_slash]
      · simp [h, b64Char_ne_slash]
      · simp [h, b64Char_ne_slash]
      · simp [h, b64Char_ne_slash]
      · exact ih c h

/-- A `takeWhile` run collects a slash-free block and stops at the slash. -/
theorem takeWhile_no_slash : ∀ (a b : List Char), (∀ c ∈ a, c ≠ '/') →
    List.takeWhile (fun c => c ≠ '/') (a ++ '/' :: b) = a
  | [], b, _ => by simp [List.takeWhile_cons]
  | c :: a, b, h => by
      have hc : c ≠ '/' := h c (List.mem_cons_self _ _)
      have ih := takeWhile_no_slash a b (fun x hx => h x (List.mem_cons_of_mem _ hx))
      simp only [decide_not] at ih
      simp [List.takeWhile_cons, hc, ih]

/-- The final segment of `pre ++ "/" ++ k` is `k` when `k` is slash-free. -/
theorem afterLastSlash_concat (pre k : List Char) (hk : '/' ∉ k) :
    afterLastSlash (pre ++ '/' :: k) = k := by
  unfold afterLastSlash
  have h1 : (pre ++ '/' :: k).reverse = k.reverse ++ '/' :: pre.reverse := by
    simp
  rw [h1, takeWhile_no_slash _ _ (fun c hc heq => hk (List.mem_reverse.mp (heq ▸ hc)))]
  exact List.reverse_reverse k

/-- Dropping the carriage return a CRLF line ends with. -/
theorem dropCR_concat_cr (l : List Char) : dropCR (l ++ ['\r']) = l := by
  unfold dropCR
  rw [List.getLast?_concat]
  simp [List.dropLast_concat]

/-- The line scanner consumes one newline-free line up to its `\n`. -/
theorem splitLinesAux_newline : ∀ (l cur rest : List Char), '\n' ∉ l →
    splitLinesAux cur (l ++ '\n' :: rest) =
      dropCR (cur.reverse ++ l) :: splitLinesAux [] rest
  | [], cur, rest, _ => by simp [splitLinesAux]
  | c :: l, cur, rest, h => by
      have hc : c ≠ '\n' := fun hh => h (by rw [← hh]; exact List.mem_cons_self _ _)
      rw [List.cons_append]
      show splitLinesAux cur (c :: (l ++ '\n' :: rest)) = _
      rw [splitLinesAux, if_neg hc]
      rw [splitLinesAux_newline l (c :: cur) rest (fun hm => h (List.mem_cons_of_mem c hm))]
      simp

/-- The line scanner consumes one CRLF-terminated line, stripping the CR. -/
theorem splitLines_crlf_line (l rest : List Char) (h : '\n' ∉ l) :
    splitLinesAux [] (l ++ '\r' :: '\n' :: rest) = l :: splitLinesAux [] rest := by
  have h2 : '\n' ∉ l ++ ['\r'] := by
    intro hm
    rcases List.mem_append.mp hm with hm | hm
    · exact h hm
    · simp at hm
  have step : l ++ '\r' :: '\n' :: rest = (l ++ ['\r']) ++ '\n' :: rest := by simp
  rw [step, splitLinesAux_newline (l ++ ['\r']) [] rest h2]
  simp [dropCR_concat_cr]

/-- Splitting distributes over the first newline boundary. -/
theorem splitLinesAux_append_newline : ∀ (a cur b : List Char),
    splitLinesAux cur (a ++ '\n' :: b) =
      splitLinesAux cur (a ++ ['\n']) ++ splitLinesAux [] b
  | [], cur, b => by simp [splitLinesAux]
  | c :: a, cur, b => by
      by_cases hc : c = '\n'
      · subst hc
        rw [List.cons_append, List.cons_append]
        show splitLinesAux cur ('\n' :: (a ++ '\n' :: b)) =
          splitLinesAux cur ('\n' :: (a ++ ['\n'])) ++ splitLinesAux [] b
        rw [splitLinesAux, if_pos rfl, splitLinesAux, if_pos rfl]
        rw [splitLinesAux_append_newline a [] b]
        simp
      · rw [List.cons_append, List.cons_append]
        show splitLinesAux cur (c :: (a ++ '\n' :: b)) = _
        rw [splitLinesAux, if_neg hc, splitLinesAux, if_neg hc]
        exact splitLinesAux_append_newline a (c :: cur) b

/-- The line loop never looks past an empty line. -/
theorem processLines_stops_at_empty : ∀ (ls : List (List Char)) (acc : Headers)
    (more : List (List Char)),
    processLines acc (ls ++ [] :: more) = processLines acc ls
  | [], acc, more => by simp [processLines]
  | l :: ls, acc, more => by
      rw [List.cons_append]
      show processLines acc (l :: (ls ++ [] :: more)) = _
      rw [processLines, processLines]
      by_cases he : l.isEmpty
      · simp [he]
      · simp only [he, if_false, Bool.false_eq_true]
        cases hpl : processLine l with
        | pair k v => exact processLines_stops_at_empty ls (addHeaderValue acc k v) more
        | parseErr => rfl
        | crash => rfl

/-- The index search locates the separating colon of a colon-free key. -/
theorem findIdx_colon : ∀ (k tail : List Char) (i : Nat), ':' ∉ k →
    List.findIdx? (fun c => c = ':') (k ++ ':' :: tail) i = some (i + k.length)
  | [], tail, i, _ => by simp [List.findIdx?_cons]
  | c :: k, tail, i, h => by
      have hc : c ≠ ':' := fun hh => h (by rw [← hh]; exact List.mem_cons_self _ _)
      rw [List.cons_append, List.findIdx?_cons]
      simp only [hc, decide_False, if_false, Bool.false_eq_true]
      rw [findIdx_colon k tail (i + 1) (fun hm => h (List.mem_cons_of_mem c hm))]
      congr 1
      simp
      omega

/-- Processing a serialized `key: value` line recovers the pair when the
key is colon-free with no trailing blank and the value has no leading
blank. -/
theorem processLine_wf (k v : List Char) (hk : ':' ∉ k)
    (hk2 : trimRightSpaceTab k = k) (hv : trimLeftSpaceTab v = v) :
    processLine (k ++ ':' :: ' ' :: v) = .pair k v := by
  have hne : (k ++ ':' :: ' ' :: v).isEmpty = false := by
    cases k <;> simp
  have hfind : (k ++ ':' :: ' ' :: v).findIdx? (fun c => c = ':') = some k.length := by
    have := findIdx_colon k (' ' :: v) 0 hk
    simpa using this
  have htake : (k ++ ':' :: ' ' :: v).take k.length = k := List.take_left k _
  have hlen : k.length + 1 ≤ (k ++ ':' :: ' ' :: v).length := by simp
  have hdrop : (k ++ ':' :: ' ' :: v).drop (k.length + 1) = ' ' :: v := by
    have hsplit : k ++ ':' :: ' ' :: v = (k ++ [':']) ++ ' ' :: v := by simp
    have hl : k.length + 1 = (k ++ [':']).length := by simp
    rw [hsplit, hl, List.drop_left]
  have hval : trimLeftSpaceTab (' ' :: v) = v := by
    unfold trimLeftSpaceTab at hv ⊢
    rw [List.dropWhile_cons]
    rw [if_pos (by simp)]
    exact hv
  unfold processLine splitFirstToken
  rw [hne]
  simp only [Bool.false_eq_true, if_false, hfind, htake]
  rw [if_pos hlen, hdrop, hk2, hval]

/-- A first occurrence of a key appends a fresh entry at the end. -/
theorem addHeaderValue_new : ∀ (hs : Headers) (k v : List Char),
    (∀ p ∈ hs, p.1 ≠ k) → addHeaderValue hs k v = hs ++ [(k, [v])]
  | [], _, _, _ => rfl
  | (k', vs') :: hs, k, v, h => by
      have hne : k' ≠ k := h (k', vs') (List.mem_cons_self _ _)
      rw [addHeaderValue, if_neg hne,
        addHeaderValue_new hs k v (fun p hp => h p (List.mem_cons_of_mem _ hp))]
      rfl

/-- A repeated key appends the value to the entry's slice. -/
theorem addHeaderValue_last : ∀ (hs : Headers) (k : List Char)
    (vs0 : List (List Char)) (v : List Char), (∀ p ∈ hs, p.1 ≠ k) →
    addHeaderValue (hs ++ [(k, vs0)]) k v = hs ++ [(k, vs0 ++ [v])]
  | [], k, vs0, v, _ => by simp [addHeaderValue]
  | (k', vs') :: hs, k, vs0, v, h => by
      have hne : k' ≠ k := h (k', vs') (List.mem_cons_self _ _)
      rw [List.cons_append, addHeaderValue, if_neg hne,
        addHeaderValue_last hs k vs0 v (fun p hp => h p (List.mem_cons_of_mem _ hp))]
      rfl

/-- Consuming the remaining lines of one key's group extends that key's
slice in order. -/
theorem processLines_group : ∀ (vs : List (List Char)) (k : List Char)
    (acc : Headers) (done : List (List Char)) (rest : List (List Char)),
    (∀ p ∈ acc, p.1 ≠ k) → ':' ∉ k → trimRightSpaceTab k = k →
    (∀ v ∈ vs, trimLeftSpaceTab v = v) →
    processLines (acc ++ [(k, done)])
        ((vs.map (fun v => k ++ ':' :: ' ' :: v)) ++ rest)
      = processLines (acc ++ [(k, done ++ vs)]) rest
  | [], k, acc, done, rest, _, _, _, _ => by simp
  | v :: vs, k, acc, done, rest, hacc, hk, hk2, hv => by
      rw [List.map_cons, List.cons_append]
      show processLines (acc ++ [(k, done)]) ((k ++ ':' :: ' ' :: v) :: _) = _
      rw [processLines]
      have hne : (k ++ ':' :: ' ' :: v).isEmpty = false := by
        cases k <;> simp
      rw [hne]
      simp only [Bool.false_eq_true, if_false]
      rw [processLine_wf k v hk hk2 (hv v (List.mem_cons_self _ _))]
      show processLines (addHeaderValue (acc ++ [(k, done)]) k v) _ = _
      rw [addHeaderValue_last acc k done v hacc]
      rw [processLines_group vs k acc (done ++ [v]) rest hacc hk hk2
        (fun x hx => hv x (List.mem_cons_of_mem _ hx))]
      simp

/-- Consuming all serialized groups rebuilds the whole mapping after the
accumulator. -/
theorem processLines_wf : ∀ (hs : Headers) (acc : Headers),
    WellFormedHeaders hs → (∀ p ∈ hs, ∀ q ∈ acc, p.1 ≠ q.1) →
    processLines acc (linesOf hs ++ [[]]) = .ok (acc ++ hs)
  | [], acc, _, _ => by simp [linesOf, processLines]
  | (k, vs) :: hs, acc, hwf, hdisj => by
      obtain ⟨hpw, hcond⟩ := hwf
      obtain ⟨⟨hk1, hk3, hk2⟩, hvs, hv⟩ := hcond (k, vs) (List.mem_cons_self _ _)
      cases vs with
      | nil => exact absurd rfl hvs
      | cons v0 vs' =>
        rw [linesOf, List.map_cons, List.append_assoc, List.cons_append]
        show processLines acc ((k ++ ':' :: ' ' :: v0) :: _) = _
        rw [processLines]
        have hne : (k ++ ':' :: ' ' :: v0).isEmpty = false := by
          cases k <;> simp
        rw [hne]
        simp only [Bool.false_eq_true, if_false]
        rw [processLine_wf k v0 hk1 hk2 (hv v0 (List.mem_cons_self _ _)).2]
        have hknot : ∀ p ∈ acc, p.1 ≠ k := by
          intro p hp heq
          exact hdisj (k, v0 :: vs') (List.mem_cons_self _ _) p hp heq.symm
        show processLines (addHeaderValue acc k v0) _ = _
        rw [addHeaderValue_new acc k v0 hknot]
        rw [processLines_group vs' k acc [v0] (linesOf hs ++ [[]]) hknot hk1 hk2
          (fun x hx => (hv x (List.mem_cons_of_mem _ hx)).2)]
        have hpw' : List.Pairwise (fun a b : List Char × List (List Char) => a.1 ≠ b.1) hs :=
          (List.pairwise_cons.mp hpw).2
        have hhead : ∀ p ∈ hs, (k, v0 :: vs').1 ≠ p.1 :=
          fun p hp => (List.pairwise_cons.mp hpw).1 p hp
        have ih := processLines_wf hs (acc ++ [(k, [v0] ++ vs')])
          ⟨hpw', fun p hp => hcond p (List.mem_cons_of_mem _ hp)⟩
          (by
            intro p hp q hq
            rcases List.mem_append.mp hq with hq | hq
            · exact hdisj p (List.mem_cons_of_mem _ hp) q hq
            · have : q = (k, [v0] ++ vs') := List.mem_singleton.mp hq
              rw [this]
              exact fun heq => hhead p hp (heq.symm))
        rw [ih]
        simp

/-- Sanitized values contain no newline. -/
theorem replaceNewlines_no_newline : ∀ l : List Char, '\n' ∉ replaceNewlines l := by
  intro l
  induction l using replaceNewlines.induct with
  | case1 => simp [replaceNewlines]
  | case2 rest ih => rw [replaceNewlines]; simp [ih]
  | case3 rest ih => rw [replaceNewlines]; simp [ih]
  | case4 c rest h1 h2 ih =>
      rw [replaceNewlines]
      · intro hm
        rcases List.mem_cons.mp hm with hm | hm
        · exact h1 hm.symm
        · exact ih hm
      · exact h1
      · exact h2

/-- Trimming only removes characters. -/
theorem mem_trimString {c : Char} {l : List Char} (h : c ∈ trimString l) : c ∈ l := by
  unfold trimString at h
  rw [List.mem_reverse] at h
  have h2 := (List.dropWhile_sublist (l := (l.dropWhile isHeaderSpace).reverse)
    isHeaderSpace).mem h
  rw [List.mem_reverse] at h2
  exact (List.dropWhile_sublist (l := l) isHeaderSpace).mem h2

/-- A value the writer keeps verbatim contains no newline. -/
theorem no_newline_of_sanitized {v : List Char}
    (h : trimString (replaceNewlines v) = v) : '\n' ∉ v := by
  intro hm
  rw [← h] at hm
  exact replaceNewlines_no_newline v (mem_trimString hm)

/-- Scanning the lines one key's group contributes. -/
theorem splitLines_writeValues : ∀ (vs : List (List Char)) (k : List Char)
    (tail : List Char), '\n' ∉ k →
    (∀ v ∈ vs, trimString (replaceNewlines v) = v) →
    splitLinesAux [] (writeValues k vs ++ tail) =
      vs.map (fun v => k ++ ':' :: ' ' :: v) ++ splitLinesAux [] tail
  | [], _, _, _, _ => by simp [writeValues]
  | v :: vs, k, tail, hk, hv => by
      have hv1 := hv v (List.mem_cons_self _ _)
      have hnlv : '\n' ∉ v := no_newline_of_sanitized hv1
      have hline : '\n' ∉ k ++ ':' :: ' ' :: v := by
        intro hm
        rcases List.mem_append.mp hm with hm | hm
        · exact hk hm
        · rcases List.mem_cons.mp hm with hm | hm
          · exact absurd hm.symm (by decide)
          · rcases List.mem_cons.mp hm with hm | hm
            · exact absurd hm.symm (by decide)
            · exact hnlv hm
      have hshape : writeValues k (v :: vs) ++ tail =
          (k ++ ':' :: ' ' :: v) ++ '\r' :: '\n' :: (writeValues k vs ++ tail) := by
        rw [writeValues, hv1]
        simp
      rw [hshape, splitLines_crlf_line _ _ hline,
        splitLines_writeValues vs k tail hk (fun x hx => hv x (List.mem_cons_of_mem _ hx))]
      simp

/-- Scanning a full serialized block yields each group's lines followed by
the terminating empty line. -/
theorem splitLines_headersAsString : ∀ hs : Headers,
    (∀ p ∈ hs, '\n' ∉ p.1 ∧ ∀ v ∈ p.2, trimString (replaceNewlines v) = v) →
    splitLinesAux [] (writeHeaderLines hs ++ ['\r', '\n']) = linesOf hs ++ [[]]
  | [], _ => by decide
  | (k, vs) :: hs, h => by
      obtain ⟨hk, hv⟩ := h (k, vs) (List.mem_cons_self _ _)
      rw [writeHeaderLines, linesOf, List.append_assoc,
        splitLines_writeValues vs k _ hk hv,
        splitLines_headersAsString hs (fun p hp => h p (List.mem_cons_of_mem _ hp))]
      simp

/-! ## Claim theorems -/

/-- C1: the claim operation atomically inserts a stub row
(`download_started = now`, `download_finished` = the epoch-zero sentinel,
`download_complete = false`); when a non-deleted row with the same key or
the same url already exists it reports not-claimed and leaves the database
unchanged. -/
theorem tryCreateStubRecord_claim (db : DB) (resourceUrl hashedUrl : String) (now : Nat) :
    ((∃ r ∈ db, r.hashedUrl = hashedUrl ∨ r.url = resourceUrl) →
      tryCreateStubRecord db resourceUrl hashedUrl now = (false, 0, db))
    ∧ ((¬ ∃ r ∈ db, r.hashedUrl = hashedUrl ∨ r.url = resourceUrl) →
      ∃ r : ResourceRow,
        tryCreateStubRecord db resourceUrl hashedUrl now = (true, r.id, db ++ [r])
        ∧ r.hashedUrl = hashedUrl ∧ r.url = resourceUrl
        ∧ r.downloadStarted = now ∧ r.downloadFinished = 0
        ∧ r.downloadComplete = false) := by
  constructor
  · intro ⟨r, hr, hkey⟩
    have : db.any (fun r => r.hashedUrl = hashedUrl || r.url = resourceUrl) = true := by
      rw [List.any_eq_true]
      exact ⟨r, hr, by simpa using hkey⟩
    simp [tryCreateStubRecord, this]
  · intro hnone
    have hany : db.any (fun r => r.hashedUrl = hashedUrl || r.url = resourceUrl) = false := by
      rw [List.any_eq_false]
      intro r hr
      simp only [Bool.or_eq_true, decide_eq_true_eq]
      intro h
      exact hnone ⟨r, hr, h⟩
    refine ⟨{ id := nextId db, hashedUrl := hashedUrl, url := resourceUrl,
              requestHeaders := "", responseHeaders := "", downloadStarted := now,
              downloadFinished := 0, rawBytes := 0, bytesOnDisk := 0,
              downloadComplete := false }, ?_, rfl, rfl, rfl, rfl, rfl⟩
    simp [tryCreateStubRecord, hany]

/-- Witness for C1: on an empty table the claim succeeds and inserts the
stub; re-claiming the same key afterwards fails and changes nothing. -/
theorem tryCreateStubRecord_claim_witness :
    (∃ r : ResourceRow,
        tryCreateStubRecord [] "http://a" "K" 5 = (true, r.id, [] ++ [r])
        ∧ r.hashedUrl = "K" ∧ r.url = "http://a"
        ∧ r.downloadStarted = 5 ∧ r.downloadFinished = 0
        ∧ r.downloadComplete = false)
    ∧ tryCreateStubRecord [⟨1, "K", "http://a", "", "", 5, 0, 0, 0, false⟩] "http://b" "K" 7
        = (false, 0, [⟨1, "K", "http://a", "", "", 5, 0, 0, 0, false⟩]) := by
  constructor
  · exact (tryCreateStubRecord_claim [] "http://a" "K" 5).2 (by simp)
  · exact (tryCreateStubRecord_claim _ "http://b" "K" 7).1
      ⟨⟨1, "K", "http://a", "", "", 5, 0, 0, 0, false⟩, by simp, Or.inl rfl⟩

/-- C2: `Decode` is a left inverse of `Encode` on every URL (byte string),
`Encode` is injective, and some ill-formed input (a lone alphabet
character) makes `Decode` fail. -/
theorem encoder_claim :
    (∀ u : List Nat, (∀ b ∈ u, b < 256) → Decode (Encode u) = some u)
    ∧ (∀ u v : List Nat, (∀ b ∈ u, b < 256) → (∀ b ∈ v, b < 256) →
        Encode u = Encode v → u = v)
    ∧ Decode ['A'] = none := by
  refine ⟨decode_encode, ?_, by decide⟩
  intro u v hu hv he
  have h1 := decode_encode u hu
  have h2 := decode_encode v hv
  rw [he, h2] at h1
  exact (Option.some.injEq _ _ ▸ h1).symm

/-- Witness for C2: the bytes of "http" round-trip, and injectivity applies
at a concrete pair. -/
theorem encoder_claim_witness :
    Decode (Encode [104, 116, 116, 112]) = some [104, 116, 116, 112]
    ∧ ([104] : List Nat) = [104] :=
  ⟨encoder_claim.1 [104, 116, 116, 112] (by decide),
   encoder_claim.2.1 [104] [104] (by decide) (by decide) rfl⟩

/-- C3: with the unique-key invariant, `Status` answers `NotCached` iff no
row carries the key, `Downloading` iff the row with the key is incomplete,
and `Cached` iff it is complete. -/
theorem status_claim (db : DB) (key : String)
    (huniq : ∀ r1 ∈ db, ∀ r2 ∈ db, r1.hashedUrl = r2.hashedUrl → r1 = r2) :
    (Status db key = .notCached ↔ ¬ ∃ r ∈ db, r.hashedUrl = key)
    ∧ (Status db key = .downloading ↔
        ∃ r ∈ db, r.hashedUrl = key ∧ r.downloadComplete = false)
    ∧ (Status db key = .cached ↔
        ∃ r ∈ db, r.hashedUrl = key ∧ r.downloadComplete = true) := by
  unfold Status
  cases hfind : db.find? (fun r => r.hashedUrl = key) with
  | none =>
    have hno : ∀ r ∈ db, r.hashedUrl ≠ key := by
      intro r hr
      have := List.find?_eq_none.mp hfind r hr
      simpa using this
    refine ⟨⟨fun _ => ?_, fun _ => rfl⟩, ⟨by simp, ?_⟩, ⟨by simp, ?_⟩⟩
    · rintro ⟨r, hr, hk⟩; exact hno r hr hk
    · rintro ⟨r, hr, hk, _⟩; exact absurd hk (hno r hr)
    · rintro ⟨r, hr, hk, _⟩; exact absurd hk (hno r hr)
  | some r =>
    have hmem : r ∈ db := List.mem_of_find?_eq_some hfind
    have hkey : r.hashedUrl = key := by
      have := List.find?_some hfind
      simpa using this
    cases hc : r.downloadComplete with
    | true =>
      simp only [hc, if_true]
      refine ⟨?_, ?_, ?_⟩
      · constructor
        · intro h; exact absurd h (by simp)
        · intro h; exact absurd ⟨r, hmem, hkey⟩ h
      · constructor
        · intro h; exact absurd h (by simp)
        · rintro ⟨r', hr', hk', hc'⟩
          have heq : r = r' := huniq r hmem r' hr' (hkey.trans hk'.symm)
          rw [← heq, hc] at hc'
          exact absurd hc' (by simp)
      · exact ⟨fun _ => ⟨r, hmem, hkey, hc⟩, fun _ => by trivial⟩
    | false =>
      simp only [hc, if_false, Bool.false_eq_true]
      refine ⟨?_, ?_, ?_⟩
      · constructor
        · intro h; exact absurd h (by simp)
        · intro h; exact absurd ⟨r, hmem, hkey⟩ h
      · exact ⟨fun _ => ⟨r, hmem, hkey, hc⟩, fun _ => by trivial⟩
      · constructor
        · intro h; exact absurd h (by simp)
        · rintro ⟨r', hr', hk', hc'⟩
          have heq : r = r' := huniq r hmem r' hr' (hkey.trans hk'.symm)
          rw [← heq, hc] at hc'
          exact absurd hc' (by simp)

/-- Witness for C3: on a one-row table holding a completed record, the three
equivalences hold at its key. -/
theorem status_claim_witness :
    (Status [⟨1, "K", "u", "", "", 5, 9, 3, 2, true⟩] "K" = .notCached ↔
      ¬ ∃ r ∈ [(⟨1, "K", "u", "", "", 5, 9, 3, 2, true⟩ : ResourceRow)], r.hashedUrl = "K")
    ∧ (Status [⟨1, "K", "u", "", "", 5, 9, 3, 2, true⟩] "K" = .downloading ↔
      ∃ r ∈ [(⟨1, "K", "u", "", "", 5, 9, 3, 2, true⟩ : ResourceRow)],
        r.hashedUrl = "K" ∧ r.downloadComplete = false)
    ∧ (Status [⟨1, "K", "u", "", "", 5, 9, 3, 2, true⟩] "K" = .cached ↔
      ∃ r ∈ [(⟨1, "K", "u", "", "", 5, 9, 3, 2, true⟩ : ResourceRow)],
        r.hashedUrl = "K" ∧ r.downloadComplete = true) :=
  status_claim [⟨1, "K", "u", "", "", 5, 9, 3, 2, true⟩] "K" (by simp)

/-- C8 (code bug): a stored header block whose first line is nonempty and
has no colon makes `readHeaders` panic with a slice-bounds violation
(`pairBytes[len(rawKey)+1:]` with `len(rawKey) = len(pairBytes)`), instead
of returning the "Did not find a colon in header pair" parse error, whose
branch is unreachable. -/
theorem readHeaders_crash_on_colonless :
    readHeaders ['a', 'b', 'c', '\n'] = .crash := by decide

/-- C9 counterexample: a freshly claimed (still downloading) row is counted
by `Stats`, so `Stats` differs from the completed-rows aggregate the claim
describes. -/
theorem stats_cex :
    Stats (tryCreateStubRecord [] "http://a" "K" 5).2.2 ≠
      StatsSpec (tryCreateStubRecord [] "http://a" "K" 5).2.2 := by decide

/-- C9 amended: `Stats` counts every row (downloading rows included) and
sums `bytes_on_disk` over every row; whenever incomplete rows carry zero
`bytes_on_disk` (as every reachable state does, stub rows being created
with zero), that byte total coincides with the completed-rows byte total. -/
theorem stats_amended (db : DB)
    (h : ∀ r ∈ db, r.downloadComplete = false → r.bytesOnDisk = 0) :
    (Stats db).1 = db.length ∧ (Stats db).2 = (StatsSpec db).2 := by
  refine ⟨rfl, ?_⟩
  induction db with
  | nil => rfl
  | cons r rest ih =>
    have hr : r.downloadComplete = false → r.bytesOnDisk = 0 :=
      h r (List.mem_cons_self r rest)
    have ih' := ih (fun r' hr' hc => h r' (List.mem_cons_of_mem r hr') hc)
    by_cases hc : r.downloadComplete
    · simp [Stats, StatsSpec, hc] at ih' ⊢
      exact ih'
    · have h0 : r.bytesOnDisk = 0 := hr (by simpa using hc)
      simp [Stats, StatsSpec, hc, h0] at ih' ⊢
      exact ih'

/-- Witness for C9's amended theorem: evaluated on a table with one
completed and one downloading row. -/
theorem stats_amended_witness :
    (Stats [⟨1, "K", "u", "", "", 5, 9, 3, 2, true⟩,
            ⟨2, "L", "v", "", "", 6, 0, 0, 0, false⟩]).1 = 2
    ∧ (Stats [⟨1, "K", "u", "", "", 5, 9, 3, 2, true⟩,
              ⟨2, "L", "v", "", "", 6, 0, 0, 0, false⟩]).2 =
      (StatsSpec [⟨1, "K", "u", "", "", 5, 9, 3, 2, true⟩,
                  ⟨2, "L", "v", "", "", 6, 0, 0, 0, false⟩]).2 :=
  stats_amended _ (by decide)

/-- C4: `download_complete = true` arises only from the finalize update
issued by `FileResourceWriter.Close` (after the gzip writer is closed),
and that one update simultaneously fixes `download_finished`, `raw_bytes`
and `bytes_on_disk`; under the writer protocol (a finalize always targets
the still-incomplete row its writer claimed) every already-complete row is
carried unchanged — fields included — through every database operation. -/
theorem download_complete_final_claim (db : DB) (e : DbEvent)
    (hvalid : validEvent db e) (r : ResourceRow) :
    (r ∈ db → r.downloadComplete = true → r ∈ applyEvent db e)
    ∧ (r ∈ applyEvent db e → r.downloadComplete = true →
        r ∈ db ∨ ∃ id hdrs now raw disk, e = .finalize id hdrs now raw disk
          ∧ r.id = id ∧ r.responseHeaders = hdrs ∧ r.downloadFinished = now
          ∧ r.rawBytes = raw ∧ r.bytesOnDisk = disk) := by
  cases e with
  | create resourceUrl hashedUrl now =>
    constructor
    · intro hr _
      show r ∈ (tryCreateStubRecord db resourceUrl hashedUrl now).2.2
      unfold tryCreateStubRecord
      by_cases hany : db.any (fun x => x.hashedUrl = hashedUrl || x.url = resourceUrl)
      · simpa [hany] using hr
      · simp only [hany]
        simp [hr]
    · intro hr hc
      left
      revert hr
      show r ∈ (tryCreateStubRecord db resourceUrl hashedUrl now).2.2 → r ∈ db
      unfold tryCreateStubRecord
      by_cases hany : db.any (fun x => x.hashedUrl = hashedUrl || x.url = resourceUrl)
      · simp [hany]
      · simp only [hany]
        intro hr
        have hsplit : r ∈ db ∨
            r = { id := nextId db, hashedUrl := hashedUrl,
                  url := resourceUrl, requestHeaders := "", responseHeaders := "",
                  downloadStarted := now, downloadFinished := 0, rawBytes := 0,
                  bytesOnDisk := 0, downloadComplete := false } := by
          simpa using hr
        rcases hsplit with h | h
        · exact h
        · exfalso
          rw [h] at hc
          exact absurd hc (by simp)
  | finalize id hdrs now raw disk =>
    constructor
    · intro hr hc
      have hid : r.id ≠ id := fun h => by
        have := hvalid r hr h
        rw [this] at hc
        exact absurd hc (by simp)
      show r ∈ writeFinalMetadata db id hdrs now raw disk
      unfold writeFinalMetadata
      have : (fun x : ResourceRow =>
          if x.id = id then
            { x with responseHeaders := hdrs, downloadFinished := now,
                     rawBytes := raw, bytesOnDisk := disk,
                     downloadComplete := true }
          else x) r = r := by simp [hid]
      exact this ▸ List.mem_map_of_mem _ hr
    · intro hr _
      rcases List.mem_map.mp hr with ⟨r0, hr0, heq⟩
      by_cases hid : r0.id = id
      · right
        refine ⟨id, hdrs, now, raw, disk, rfl, ?_⟩
        rw [← heq]
        simp [hid]
      · left
        rw [← heq]
        simpa [hid] using hr0

/-- Witness for C4: a concrete completed row survives a later claim of a
different URL, and a finalize on a fresh stub row is recognized as the
step that set its final fields. -/
theorem download_complete_final_claim_witness :
    (⟨1, "K", "u", "", "", 5, 9, 3, 2, true⟩ : ResourceRow) ∈
      applyEvent [⟨1, "K", "u", "", "", 5, 9, 3, 2, true⟩] (.create "v" "L" 6) :=
  (download_complete_final_claim [⟨1, "K", "u", "", "", 5, 9, 3, 2, true⟩]
    (.create "v" "L" 6) trivial ⟨1, "K", "u", "", "", 5, 9, 3, 2, true⟩).1
    (List.mem_singleton.mpr rfl) rfl

/-- C5: the waiter's sleep sequence starts at 100 ms, each later sleep is
the 1.5-fold of the previous one clamped to the 10 s ceiling, every sleep
is at most 10 s; and with enough fuel the loop never runs out: it stops
either because the poll succeeded or because the slept total reached the
30-minute deadline, in which case it returns the timeout error. -/
theorem backoff_claim (f : Nat → Bool) :
    delaySeq 0 = 100000000
    ∧ (∀ n, delaySeq (n + 1) = min ((3 * delaySeq n + 1) / 2) 10000000000)
    ∧ (∀ n, delaySeq n ≤ 10000000000)
    ∧ withExponentialBackoff f 18002 0 100000000 0 ≠ .fuelOut
    ∧ (∀ fuel tries delay total t tot,
        withExponentialBackoff f fuel tries delay total = .success t tot → f t = true)
    ∧ (∀ fuel tries delay total tot,
        withExponentialBackoff f fuel tries delay total = .timeout tot →
          1800000000000 ≤ tot) := by
  have hmin : ∀ d, nextDelay d = min ((3 * d + 1) / 2) 10000000000 := by
    intro d
    show (if (3 * d + 1) / 2 ≥ backoffMaxDuration then backoffMaxDuration
          else (3 * d + 1) / 2) = _
    unfold backoffMaxDuration
    split <;> omega
  have hub : ∀ n, delaySeq n ≤ 10000000000 := by
    intro n
    cases n with
    | zero => unfold delaySeq backoffBase; omega
    | succ m => rw [delaySeq, hmin]; omega
  have hlb : ∀ d, 100000000 ≤ d → 100000000 ≤ nextDelay d := by
    intro d hd
    rw [hmin]
    omega
  refine ⟨rfl, fun n => by rw [delaySeq, hmin], hub, ?_, ?_, ?_⟩
  · have key : ∀ fuel tries delay total, 100000000 ≤ delay →
        backoffMaxTime ≤ total + fuel * 100000000 →
        withExponentialBackoff f (fuel + 1) tries delay total ≠ .fuelOut := by
      intro fuel
      induction fuel with
      | zero =>
        intro tries delay total _ htot
        unfold withExponentialBackoff
        have : total ≥ backoffMaxTime := by omega
        split
        · simp
        · simp [this]
      | succ m ih =>
        intro tries delay total hdel htot
        unfold withExponentialBackoff
        split
        · simp
        · split
          · simp
          · exact ih (tries + 1) (nextDelay delay) (total + delay) (hlb delay hdel)
              (by unfold backoffMaxTime at htot ⊢; omega)
    have := key 18001 0 100000000 0 (le_refl _) (by unfold backoffMaxTime; omega)
    exact this
  · intro fuel
    induction fuel with
    | zero => intro tries delay total t tot h; exact absurd h (by simp [withExponentialBackoff])
    | succ m ih =>
      intro tries delay total t tot h
      unfold withExponentialBackoff at h
      by_cases hf : f tries
      · simp [hf] at h
        rw [← h.1, hf]
      · simp [hf] at h
        by_cases ht : total ≥ backoffMaxTime
        · simp [ht] at h
        · simp [ht] at h
          exact ih _ _ _ _ _ h
  · intro fuel
    induction fuel with
    | zero => intro tries delay total tot h; exact absurd h (by simp [withExponentialBackoff])
    | succ m ih =>
      intro tries delay total tot h
      unfold withExponentialBackoff at h
      by_cases hf : f tries
      · simp [hf] at h
      · simp [hf] at h
        by_cases ht : total ≥ backoffMaxTime
        · simp [ht] at h
          unfold backoffMaxTime at ht
          omega
        · simp [ht] at h
          exact ih _ _ _ _ h

/-- Witness for C5: the loop reports success immediately for an
always-true poll, and its timeout branch on an expired total indeed
carries a total at or past the deadline. -/
theorem backoff_claim_witness :
    (fun _ : Nat => true) 0 = true ∧ (1800000000000 : Nat) ≤ 1800000000000 :=
  ⟨(backoff_claim (fun _ => true)).2.2.2.2.1 1 0 100000000 0 0 0 (by rfl),
   (backoff_claim (fun _ => false)).2.2.2.2.2 1 0 100000000 1800000000000
     1800000000000 (by rfl)⟩

/-- C6 counterexample: a value with a leading space is trimmed by
`Header.Write` before storage, so serializing and re-parsing the mapping
`{"a": [" b"]}` yields `{"a": ["b"]}`, not an equal mapping. -/
theorem header_roundtrip_cex :
    readHeaders (headersAsString [(['a'], [[' ', 'b']])]) ≠
      HeadersResult.ok [(['a'], [[' ', 'b']])] := by decide

/-- C6 amended: serializing a multi-valued header mapping with
`headersAsString` and parsing it back with `readHeaders` yields an equal
mapping for every mapping the writer stores verbatim: distinct keys free
of colons, newlines and trailing blanks, and nonempty value lists whose
values carry no newline, no carriage return and no leading or trailing
ASCII whitespace — in
particular values with interior colons such as `"h": "i : j"`, since the
parser splits each line at its first colon only. -/
theorem header_roundtrip_amended (hs : Headers) (hwf : WellFormedHeaders hs) :
    readHeaders (headersAsString hs) = .ok hs := by
  unfold readHeaders splitLines headersAsString
  rw [splitLines_headersAsString hs
    (fun p hp => ⟨((hwf.2 p hp).1).2.1, fun v hv => ((hwf.2 p hp).2.2 v hv).1⟩)]
  rw [processLines_wf hs [] hwf (by simp)]
  rfl

/-- Witness for C6's amended theorem: the S6 mapping, whose value
`"i : j"` contains an interior colon, round-trips unchanged. -/
theorem header_roundtrip_amended_witness :
    readHeaders (headersAsString
        [(['a'], [['b'], ['c']]), (['d'], [['e']]), (['h'], [['i', ' ', ':', ' ', 'j']])])
      = .ok [(['a'], [['b'], ['c']]), (['d'], [['e']]), (['h'], [['i', ' ', ':', ' ', 'j']])] :=
  header_roundtrip_amended
    [(['a'], [['b'], ['c']]), (['d'], [['e']]), (['h'], [['i', ' ', ':', ' ', 'j']])]
    (by constructor
        · decide
        · decide)

/-- C7: whenever the attribute value resolves to an absolute URL, the
rewritten value is `protocol://host/c/` followed by a slash-free key, that
key is the URL's final path segment, and decoding it recovers the resolved
absolute target. -/
theorem rewritten_link_claim (resolveAbs : List Nat → Option (List Nat))
    (toTranslate : List Nat) (protocol host : List Char) (absUrl : List Nat)
    (hres : resolveAbs toTranslate = some absUrl)
    (habs : ∀ b ∈ absUrl, b < 256) :
    ∃ k : List Char,
      translateCachedUrl resolveAbs toTranslate protocol host =
        some (protocol ++ [':', '/', '/'] ++ host ++ ['/', 'c', '/'] ++ k)
      ∧ '/' ∉ k
      ∧ afterLastSlash (protocol ++ [':', '/', '/'] ++ host ++ ['/', 'c', '/'] ++ k) = k
      ∧ Decode k = some absUrl := by
  have hslash : '/' ∉ Encode absUrl := fun hc => encode_no_slash absUrl '/' hc rfl
  refine ⟨Encode absUrl, ?_, hslash, ?_, decode_encode absUrl habs⟩
  · rw [translateCachedUrl, hres]
    rfl
  · have hshape : protocol ++ [':', '/', '/'] ++ host ++ ['/', 'c', '/'] ++ Encode absUrl
        = (protocol ++ [':', '/', '/'] ++ host ++ ['/', 'c']) ++ '/' :: Encode absUrl := by
      simp
    rw [hshape]
    exact afterLastSlash_concat _ _ hslash

/-- Witness for C7: rewriting the relative reference `/x` on a page whose
resolution yields the bytes of "http" produces a decodable `/c/` link. -/
theorem rewritten_link_claim_witness :
    ∃ k : List Char,
      translateCachedUrl (fun _ => some [104, 116, 116, 112]) [47, 120]
          ['h', 't', 't', 'p'] ['h'] =
        some (['h', 't', 't', 'p'] ++ [':', '/', '/'] ++ ['h'] ++ ['/', 'c', '/'] ++ k)
      ∧ '/' ∉ k
      ∧ afterLastSlash (['h', 't', 't', 'p'] ++ [':', '/', '/'] ++ ['h'] ++ ['/', 'c', '/'] ++ k) = k
      ∧ Decode k = some [104, 116, 116, 112] :=
  rewritten_link_claim (fun _ => some [104, 116, 116, 112]) [47, 120]
    ['h', 't', 't', 'p'] ['h'] [104, 116, 116, 112] rfl (by decide)

/-- C10: the parser stops at the first empty line and silently ignores
everything after it — a block continuing with arbitrary trailing bytes
after the empty-line terminator parses exactly like the block truncated at
that terminator, with no error for the trailing bytes. -/
theorem readHeaders_stops_at_empty_line (u t : List Char) :
    readHeaders (u ++ '\n' :: '\n' :: t) = readHeaders (u ++ ['\n']) := by
  unfold readHeaders splitLines
  rw [splitLinesAux_append_newline u [] ('\n' :: t)]
  have h2 : splitLinesAux ([] : List Char) ('\n' :: t) = [] :: splitLinesAux [] t := by
    rw [splitLinesAux, if_pos rfl]
    rfl
  rw [h2]
  exact processLines_stops_at_empty _ [] _

end Knox
